import Mathlib

/-!
Verification of the data-cleaning pipeline of `cancer_analysis.py`
(oral-cancer risk-factor dataset).

The pipeline's stages are embedded shallowly:
* missing-value imputation (numeric columns filled with the pandas median,
  categorical columns filled with `mode()[0]`),
* IQR outlier capping (`handle_outliers`),
* min-max normalization (`normalize_column`),
* z-score normalization,
* categorical text formatting (`astype(str).str.strip()` then `.str.title()`).

Numeric cell values are modelled as `ℚ` (exact arithmetic in place of
IEEE floats), missing values as `Option`.
-/

namespace CancerAnalysis

/-- Ascending sort of a rational-valued column, as NumPy/pandas sort before
taking percentiles or medians. -/
def sortAsc (xs : List ℚ) : List ℚ := List.insertionSort (· ≤ ·) xs

/-- Linear-interpolation value at fractional position `h` in the sorted list
`s` (NumPy's default percentile interpolation): with `f = ⌊h⌋`, the result is
`s[f] + (h - f) * (s[f+1] - s[f])`, where a position past the end falls back
to `s[f]`. -/
def interpAt (s : List ℚ) (h : ℚ) : ℚ :=
  s.getD (Int.floor h).toNat 0 +
    (h - ((Int.floor h).toNat : ℚ)) *
      (s.getD ((Int.floor h).toNat + 1) (s.getD (Int.floor h).toNat 0) -
        s.getD (Int.floor h).toNat 0)

/-- `np.percentile(xs, q)` with the default linear interpolation:
the value at position `(q/100) * (n-1)` of the ascending sort. -/
def percentile (xs : List ℚ) (q : ℚ) : ℚ :=
  interpAt (sortAsc xs) (q / 100 * ((xs.length : ℚ) - 1))

/-- `Series.median()` over the (non-missing) values: middle element of the
ascending sort for odd length, average of the two middle elements for even
length. -/
def pandasMedian (xs : List ℚ) : ℚ :=
  let s := sortAsc xs
  let n := s.length
  if n % 2 = 1 then s.getD (n / 2) 0
  else (s.getD (n / 2 - 1) 0 + s.getD (n / 2) 0) / 2

/-- `np.mean`: sum divided by length (`0` for the empty list, whose NumPy
mean is NaN — never used on empty data here). -/
def npMean (xs : List ℚ) : ℚ := xs.sum / (xs.length : ℚ)

/-- The square of `np.std` (population variance): mean of squared deviations
from the mean.  `np.std` itself is its square root, taken over `ℝ` below. -/
def npVar (xs : List ℚ) : ℚ := npMean (xs.map (fun x => (x - npMean xs) ^ 2))

/-- `np.min` of a column (`0` for the empty column, on which NumPy raises). -/
def npMin (xs : List ℚ) : ℚ :=
  match xs with
  | [] => 0
  | v :: vs => vs.foldl min v

/-- `np.max` of a column (`0` for the empty column, on which NumPy raises). -/
def npMax (xs : List ℚ) : ℚ :=
  match xs with
  | [] => 0
  | v :: vs => vs.foldl max v

/-- `Q1 - 1.5*IQR` of `handle_outliers` (lines 46–49). -/
def lower_bound (xs : List ℚ) : ℚ :=
  percentile xs 25 - 3/2 * (percentile xs 75 - percentile xs 25)

/-- `Q3 + 1.5*IQR` of `handle_outliers` (line 50). -/
def upper_bound (xs : List ℚ) : ℚ :=
  percentile xs 75 + 3/2 * (percentile xs 75 - percentile xs 25)

/-- The two `np.where` passes of `handle_outliers` (lines 57–58) applied to a
single cell: values below the lower bound become the lower bound, then values
above the upper bound become the upper bound. -/
def capCell (lower upper v : ℚ) : ℚ :=
  if (if v < lower then lower else v) > upper then upper
  else (if v < lower then lower else v)

/-- The mutation `handle_outliers` performs on the designated column: both
bounds are computed from the column's current values, then every cell is
capped. -/
def capColumn (xs : List ℚ) : List ℚ :=
  xs.map (capCell (lower_bound xs) (upper_bound xs))

/-- A post-imputation numeric data frame: a map from column name to the
column's (non-missing) values. -/
def Frame : Type := String → List ℚ

/-- `handle_outliers(df, column)` (lines 45–60): returns `df` with the one
designated column capped to `[lower_bound, upper_bound]` of its current
distribution; all other columns are untouched. -/
def handle_outliers (df : Frame) (column : String) : Frame :=
  fun n => if n = column then capColumn (df column) else df n

/-- The whitelist `outlier_columns` (lines 63–64). -/
def outlier_columns : List String :=
  ["Age", "Tumor Size (cm)", "Survival Rate (5-Year, %)",
   "Cost of Treatment (USD)", "Economic Burden (Lost Workdays per Year)"]

/-- The outlier stage (lines 66–67): fold `handle_outliers` over the
designated columns in order. -/
def outlierStage (df : Frame) : Frame :=
  outlier_columns.foldl handle_outliers df

/-- `normalize_column(df, column)` (lines 98–102): the derived
`<column>_normalized` values, `(x - min) / (max - min)` with `min`/`max`
taken over the column's current values. -/
def normalize_column (xs : List ℚ) : List ℚ :=
  xs.map (fun x => (x - npMin xs) / (npMax xs - npMin xs))

/-! ### Missing-value imputation (lines 26–37) -/

/-- The largest multiplicity among the values of a categorical column. -/
def maxFreq (xs : List String) : ℕ := (xs.map (fun v => xs.count v)).foldr max 0

/-- The values tied for most frequent. -/
def modeCands (xs : List String) : List String :=
  xs.filter (fun v => xs.count v = maxFreq xs)

/-- `Series.mode()[0]`: pandas returns the most frequent values in ascending
sorted order, so taking index 0 yields the smallest value among those tied
for most frequent (`none` when there are no values, where pandas raises). -/
def pandasModeZero (xs : List String) : Option String :=
  match modeCands xs with
  | [] => none
  | v :: vs => some (vs.foldl min v)

/-- Modelled from the spec's words for comparison (refinement check): the
"first-encountered most frequent non-missing value", which the spec claims
is the tie-break used for the categorical fill. -/
def specFirstMode (xs : List String) : Option String :=
  xs.find? (fun v => xs.count v = maxFreq xs)

/-- The numeric fill loop body (lines 27–30): a numeric column with at least
one missing value has every missing cell replaced by the median of its
non-missing values; with no missing value the column is untouched.  When all
values are missing the median of an empty series is NaN and `fillna` with
NaN changes nothing. -/
def imputeNum (col : List (Option ℚ)) : List (Option ℚ) :=
  if col.any Option.isNone then
    match col.filterMap id with
    | [] => col
    | v :: vs => col.map (fun x => some (x.getD (pandasMedian (v :: vs))))
  else col

/-- The categorical fill loop body (lines 34–37): a categorical column with
at least one missing value has every missing cell replaced by `mode()[0]` of
the column; `none` models the `KeyError` raised by `mode()[0]` when the
column has no non-missing value at all. -/
def imputeCat (col : List (Option String)) : Option (List (Option String)) :=
  if col.any Option.isNone then
    match pandasModeZero (col.filterMap id) with
    | some m => some (col.map (fun x => some (x.getD m)))
    | none => none
  else some col

/-- A raw dataset: named numeric columns and named categorical columns, with
`Option` marking missing cells. -/
structure Dataset where
  numCols : List (String × List (Option ℚ))
  catCols : List (String × List (Option String))
deriving DecidableEq

/-- The whole imputation stage: the numeric loop over all numeric columns
and the categorical loop over all categorical columns (`none` when the
categorical loop raises). -/
def imputeDataset (d : Dataset) : Option Dataset :=
  match d.catCols.mapM (fun p => (imputeCat p.2).map (fun c => (p.1, c))) with
  | some cats => some ⟨d.numCols.map (fun p => (p.1, imputeNum p.2)), cats⟩
  | none => none

/-- `df.isnull().sum().sum() == 0`: no missing cell anywhere. -/
def noMissing (d : Dataset) : Bool :=
  d.numCols.all (fun p => p.2.all Option.isSome) &&
    d.catCols.all (fun p => p.2.all Option.isSome)

/-! ### Z-score normalization (lines 114–117) -/

/-- `np.std`: the square root of the population variance, over `ℝ` since the
square root of a rational is generally irrational. -/
noncomputable def npStd (xs : List ℚ) : ℝ := Real.sqrt ((npVar xs : ℚ) : ℝ)

/-- The derived `<col>_zscore` values: `(x - mean) / std`. -/
noncomputable def zscoreColumn (xs : List ℚ) : List ℝ :=
  xs.map (fun x : ℚ => ((x : ℝ) - ((npMean xs : ℚ) : ℝ)) / npStd xs)

/-- `np.mean` of a real-valued derived column. -/
noncomputable def meanR (ys : List ℝ) : ℝ := ys.sum / (ys.length : ℝ)

/-- `np.std` of a real-valued derived column. -/
noncomputable def stdR (ys : List ℝ) : ℝ :=
  Real.sqrt (meanR (ys.map (fun y => (y - meanR ys) ^ 2)))

/-! ### Categorical text formatting (lines 123–127) -/

/-- One character of Python `str.title()`: `prev` records whether the
preceding character is a letter; a letter not preceded by a letter is
uppercased, a letter preceded by a letter is lowercased, any other
character is unchanged. -/
def titleMap (prev : Bool) (c : Char) : Char :=
  if c.isAlpha then (if prev then c.toLower else c.toUpper) else c

/-- Python `str.title()` over the characters of a string. -/
def titleChars : Bool → List Char → List Char
  | _, [] => []
  | prev, c :: rest => titleMap prev c :: titleChars c.isAlpha rest

/-- Python `str.strip()`: drop leading and trailing whitespace. -/
def stripChars (cs : List Char) : List Char :=
  ((cs.dropWhile Char.isWhitespace).reverse.dropWhile Char.isWhitespace).reverse

/-- Lines 125–127 applied to one cell: `astype(str)` (the identity on these
string-valued cells), `.str.strip()`, then `.str.title()`. -/
def formatCell (s : String) : String :=
  String.mk (titleChars false (stripChars s.data))

/-- Modelled from the spec's words for comparison (refinement check): title
case with words delimited by whitespace only — the first letter of each
whitespace-separated word is capitalized and the remaining letters of the
word are lowercased. -/
def wsTitleChars : Bool → List Char → List Char
  | _, [] => []
  | afterWs, c :: rest =>
    (if c.isWhitespace then c else if afterWs then c.toUpper else c.toLower) ::
      wsTitleChars c.isWhitespace rest

/-- Modelled from the spec's words for comparison: strip, then
whitespace-word title case. -/
def wsFormatCell (s : String) : String :=
  String.mk (wsTitleChars true (stripChars s.data))

/-! ### Sortedness and interpolation lemmas -/

theorem sortAsc_sorted (xs : List ℚ) : (sortAsc xs).Sorted (· ≤ ·) :=
  List.sorted_insertionSort _ xs

theorem sortAsc_perm (xs : List ℚ) : List.Perm (sortAsc xs) xs :=
  List.perm_insertionSort _ xs

theorem sortAsc_length (xs : List ℚ) : (sortAsc xs).length = xs.length :=
  (sortAsc_perm xs).length_eq

theorem sortAsc_mem {xs : List ℚ} {v : ℚ} (h : v ∈ sortAsc xs) : v ∈ xs :=
  (sortAsc_perm xs).mem_iff.mp h

/-- In a sorted list, earlier entries are no larger than later in-range ones. -/
theorem sorted_getD_mono {s : List ℚ} (hs : s.Sorted (· ≤ ·)) {i j : ℕ}
    (hij : i ≤ j) (hj : j < s.length) : s.getD i 0 ≤ s.getD j 0 := by
  have hi : i < s.length := lt_of_le_of_lt hij hj
  rw [List.getD_eq_getElem s 0 hi, List.getD_eq_getElem s 0 hj]
  rcases eq_or_lt_of_le hij with rfl | hlt
  · exact le_refl _
  · exact List.pairwise_iff_getElem.mp hs i j hi hj hlt

/-- The integer part of a nonnegative fractional position. -/
theorem floor_toNat_cast {h : ℚ} (h0 : 0 ≤ h) :
    ((Int.floor h).toNat : ℚ) = ((Int.floor h : ℤ) : ℚ) := by
  exact_mod_cast congrArg (fun z : ℤ => (z : ℚ))
    (Int.toNat_of_nonneg (Int.floor_nonneg.mpr h0))

theorem frac_nonneg {h : ℚ} (h0 : 0 ≤ h) : 0 ≤ h - ((Int.floor h).toNat : ℚ) := by
  rw [floor_toNat_cast h0]
  have := Int.floor_le h
  linarith

theorem frac_lt_one {h : ℚ} (h0 : 0 ≤ h) : h - ((Int.floor h).toNat : ℚ) < 1 := by
  rw [floor_toNat_cast h0]
  have := Int.lt_floor_add_one h
  linarith

theorem floor_toNat_lt {s : List ℚ} {h : ℚ} (h0 : 0 ≤ h)
    (hub : h ≤ (s.length : ℚ) - 1) : (Int.floor h).toNat < s.length := by
  have h1 : (1 : ℚ) ≤ (s.length : ℚ) := by
    have := le_trans h0 hub
    linarith
  have hn : 1 ≤ s.length := by exact_mod_cast h1
  have hfl : Int.floor h ≤ (s.length : ℤ) - 1 := by
    have : ((s.length : ℤ) : ℚ) - 1 = ((s.length : ℚ) - 1) := by push_cast; ring
    have hle : Int.floor h ≤ Int.floor ((s.length : ℚ) - 1) := Int.floor_le_floor hub
    rwa [show ((s.length : ℚ) - 1) = (((s.length : ℤ) - 1 : ℤ) : ℚ) by push_cast; ring,
      Int.floor_intCast] at hle
  omega

/-- The default value in `interpAt`'s upper index never matters when the
lower index is the last position. -/
theorem getD_succ_default {s : List ℚ} {f : ℕ} (hge : s.length ≤ f + 1) (d : ℚ) :
    s.getD (f + 1) d = d :=
  List.getD_eq_default _ _ hge

/-- The interpolated value is at least the cell's left endpoint. -/
theorem interpAt_ge {s : List ℚ} (hs : s.Sorted (· ≤ ·)) {h : ℚ} (h0 : 0 ≤ h)
    (hub : h ≤ (s.length : ℚ) - 1) :
    s.getD (Int.floor h).toNat 0 ≤ interpAt s h := by
  have hfr := frac_nonneg h0
  have hflt := floor_toNat_lt h0 hub
  unfold interpAt
  set f := (Int.floor h).toNat with hf
  rcases lt_or_ge (f + 1) s.length with hlt | hge
  · have hmono := sorted_getD_mono hs (Nat.le_succ f) hlt
    have hdflt : s.getD (f+1) (s.getD f 0) = s.getD (f+1) 0 := by
      rw [List.getD_eq_getElem s _ hlt, List.getD_eq_getElem s _ hlt]
    rw [hdflt]
    nlinarith
  · rw [getD_succ_default hge]
    nlinarith

/-- The interpolated value is at most the cell's right endpoint. -/
theorem interpAt_le {s : List ℚ} (hs : s.Sorted (· ≤ ·)) {h : ℚ} (h0 : 0 ≤ h)
    (hub : h ≤ (s.length : ℚ) - 1) :
    interpAt s h ≤ s.getD ((Int.floor h).toNat + 1) (s.getD (Int.floor h).toNat 0) := by
  have hfr := frac_nonneg h0
  have hfr1 := frac_lt_one h0
  have hflt := floor_toNat_lt h0 hub
  unfold interpAt
  set f := (Int.floor h).toNat with hf
  rcases lt_or_ge (f + 1) s.length with hlt | hge
  · have hmono := sorted_getD_mono hs (Nat.le_succ f) hlt
    have hdflt : s.getD (f+1) (s.getD f 0) = s.getD (f+1) 0 := by
      rw [List.getD_eq_getElem s _ hlt, List.getD_eq_getElem s _ hlt]
    rw [hdflt]
    nlinarith
  · rw [getD_succ_default hge]
    nlinarith

/-- Linear interpolation over a sorted list is monotone in the position. -/
theorem interpAt_mono {s : List ℚ} (hs : s.Sorted (· ≤ ·)) {h₁ h₂ : ℚ}
    (h0 : 0 ≤ h₁) (h12 : h₁ ≤ h₂) (hub : h₂ ≤ (s.length : ℚ) - 1) :
    interpAt s h₁ ≤ interpAt s h₂ := by
  have h02 : 0 ≤ h₂ := le_trans h0 h12
  have hub1 : h₁ ≤ (s.length : ℚ) - 1 := le_trans h12 hub
  have hff : (Int.floor h₁).toNat ≤ (Int.floor h₂).toNat := by
    have := Int.floor_le_floor h12
    have h1n := Int.floor_nonneg.mpr h0
    omega
  have hflt1 := floor_toNat_lt h0 hub1
  have hflt2 := floor_toNat_lt (s := s) h02 hub
  rcases Nat.eq_or_lt_of_le hff with heq | hlt
  · -- same cell: the difference is (h₂ - h₁) · (hi - lo) ≥ 0
    have hfr1 := frac_nonneg h0
    have hfr2 := frac_nonneg h02
    unfold interpAt
    rw [← heq]
    set f := (Int.floor h₁).toNat with hf
    rcases lt_or_ge (f + 1) s.length with hlt' | hge
    · have hmono := sorted_getD_mono hs (Nat.le_succ f) hlt'
      have hdflt : s.getD (f+1) (s.getD f 0) = s.getD (f+1) 0 := by
        rw [List.getD_eq_getElem s _ hlt', List.getD_eq_getElem s _ hlt']
      rw [hdflt]
      nlinarith [mul_le_mul_of_nonneg_right (sub_le_sub_right h12 (f : ℚ))
        (sub_nonneg.mpr hmono)]
    · rw [getD_succ_default hge]
      nlinarith
  · -- different cells: chain through the endpoints
    have step1 : interpAt s h₁ ≤
        s.getD ((Int.floor h₁).toNat + 1) (s.getD (Int.floor h₁).toNat 0) :=
      interpAt_le hs h0 hub1
    have hlt1 : (Int.floor h₁).toNat + 1 < s.length := lt_of_le_of_lt hlt hflt2
    have hdflt : s.getD ((Int.floor h₁).toNat + 1) (s.getD (Int.floor h₁).toNat 0) =
        s.getD ((Int.floor h₁).toNat + 1) 0 := by
      rw [List.getD_eq_getElem s _ hlt1, List.getD_eq_getElem s _ hlt1]
    have step2 : s.getD ((Int.floor h₁).toNat + 1) 0 ≤ s.getD (Int.floor h₂).toNat 0 :=
      sorted_getD_mono hs hlt hflt2
    have step3 : s.getD (Int.floor h₂).toNat 0 ≤ interpAt s h₂ := interpAt_ge hs h02 hub
    rw [hdflt] at step1
    linarith

/-- The 25th percentile never exceeds the 75th. -/
theorem q1_le_q3 (xs : List ℚ) (hne : xs ≠ []) :
    percentile xs 25 ≤ percentile xs 75 := by
  have hn : 1 ≤ xs.length := List.length_pos.mpr hne
  have hn' : (1 : ℚ) ≤ (xs.length : ℚ) := by exact_mod_cast hn
  unfold percentile
  rw [← sortAsc_length xs] at hn' ⊢
  apply interpAt_mono (sortAsc_sorted xs)
  · nlinarith
  · nlinarith
  · nlinarith

theorem lower_le_upper (xs : List ℚ) (hne : xs ≠ []) :
    lower_bound xs ≤ upper_bound xs := by
  have := q1_le_q3 xs hne
  unfold lower_bound upper_bound
  linarith

/-! ### Capping lemmas -/

/-- With ordered bounds, a capped cell lies in `[lower, upper]`. -/
theorem capCell_mem (l u : ℚ) (hlu : l ≤ u) (v : ℚ) :
    l ≤ capCell l u v ∧ capCell l u v ≤ u := by
  unfold capCell
  split_ifs <;> constructor <;> linarith

/-- A cell already inside the bounds is left unchanged. -/
theorem capCell_of_mem (l u v : ℚ) (hl : l ≤ v) (hu : v ≤ u) : capCell l u v = v := by
  unfold capCell
  split_ifs <;> linarith

/-- A cell strictly below the lower bound becomes the lower bound. -/
theorem capCell_of_lt (l u v : ℚ) (hlu : l ≤ u) (hv : v < l) : capCell l u v = l := by
  unfold capCell
  split_ifs <;> linarith

/-- A cell strictly above the upper bound becomes the upper bound. -/
theorem capCell_of_gt (l u v : ℚ) (hlu : l ≤ u) (hv : u < v) : capCell l u v = u := by
  unfold capCell
  split_ifs <;> linarith

theorem capColumn_length (xs : List ℚ) : (capColumn xs).length = xs.length :=
  List.length_map _ _

/-- Every value of a capped nonempty column lies within the column's
pre-capping IQR bounds. -/
theorem capColumn_mem_bounds (xs : List ℚ) (hne : xs ≠ []) :
    ∀ v ∈ capColumn xs, lower_bound xs ≤ v ∧ v ≤ upper_bound xs := by
  intro v hv
  obtain ⟨x, _, rfl⟩ := List.mem_map.mp hv
  exact capCell_mem _ _ (lower_le_upper xs hne) x

/-- Columns other than the designated one are untouched by `handle_outliers`. -/
theorem handle_outliers_other (df : Frame) (column n : String) (hn : n ≠ column) :
    handle_outliers df column n = df n := by
  unfold handle_outliers
  simp [hn]

theorem handle_outliers_designated (df : Frame) (column : String) :
    handle_outliers df column column = capColumn (df column) := by
  unfold handle_outliers
  simp

/-- Folding `handle_outliers` over columns not containing `c` leaves column
`c` untouched. -/
theorem foldl_handle_outliers_not_mem (l : List String) (df : Frame) (c : String)
    (hc : c ∉ l) : (l.foldl handle_outliers df) c = df c := by
  induction l generalizing df with
  | nil => rfl
  | cons a t ih =>
    have hca : c ≠ a := fun h => hc (h ▸ List.mem_cons_self a t)
    have hct : c ∉ t := fun h => hc (List.mem_cons_of_mem a h)
    rw [List.foldl_cons, ih _ hct, handle_outliers_other df a c hca]

/-- Folding `handle_outliers` over a duplicate-free list containing `c` caps
column `c` exactly once, using the values `c` held before the fold. -/
theorem foldl_handle_outliers_mem (l : List String) (df : Frame) (c : String)
    (hl : l.Nodup) (hc : c ∈ l) : (l.foldl handle_outliers df) c = capColumn (df c) := by
  induction l generalizing df with
  | nil => exact absurd hc (List.not_mem_nil c)
  | cons a t ih =>
    rw [List.foldl_cons]
    rcases List.mem_cons.mp hc with rfl | hct
    · have hct : c ∉ t := (List.nodup_cons.mp hl).1
      rw [foldl_handle_outliers_not_mem t _ c hct, handle_outliers_designated]
    · have hta : t.Nodup := (List.nodup_cons.mp hl).2
      by_cases hca : c = a
      · exact absurd (hca ▸ hct) (List.nodup_cons.mp hl).1
      · rw [ih _ hta hct, handle_outliers_other df a c hca]

theorem outlier_columns_nodup : outlier_columns.Nodup := by decide

/-! ### Constant-column lemmas -/

theorem getD_of_all_eq {s : List ℚ} {a : ℚ} (ha : ∀ x ∈ s, x = a) {i : ℕ}
    (hi : i < s.length) : s.getD i 0 = a := by
  rw [List.getD_eq_getElem s 0 hi]
  exact ha _ (s.getElem_mem hi)

theorem interpAt_const {s : List ℚ} {a : ℚ} (ha : ∀ x ∈ s, x = a) {h : ℚ}
    (h0 : 0 ≤ h) (hub : h ≤ (s.length : ℚ) - 1) : interpAt s h = a := by
  have hflt := floor_toNat_lt h0 hub
  unfold interpAt
  set f := (Int.floor h).toNat with hf
  have hlo : s.getD f 0 = a := getD_of_all_eq ha hflt
  rcases lt_or_ge (f + 1) s.length with hlt | hge
  · have hhi : s.getD (f+1) (s.getD f 0) = a := by
      rw [List.getD_eq_getElem s _ hlt]
      exact ha _ (s.getElem_mem hlt)
    rw [hhi, hlo]
    ring
  · rw [getD_succ_default hge, hlo]
    ring

/-- Any percentile of a constant column equals the constant. -/
theorem percentile_const {xs : List ℚ} {a : ℚ} (hne : xs ≠ [])
    (ha : ∀ x ∈ xs, x = a) {q : ℚ} (hq0 : 0 ≤ q) (hq1 : q ≤ 100) :
    percentile xs q = a := by
  have hn : 0 < xs.length := List.length_pos.mpr hne
  have hn' : (1 : ℚ) ≤ (xs.length : ℚ) := by exact_mod_cast hn
  unfold percentile
  apply interpAt_const (fun x hx => ha x (sortAsc_mem hx))
  · nlinarith
  · rw [sortAsc_length]
    nlinarith

/-! ### Fold length preservation and min/max lemmas -/

theorem handle_outliers_length (df : Frame) (column n : String) :
    (handle_outliers df column n).length = (df n).length := by
  unfold handle_outliers
  by_cases h : n = column
  · subst h
    simp [capColumn_length]
  · simp [h]

theorem foldl_handle_outliers_length (l : List String) (df : Frame) (c : String) :
    ((l.foldl handle_outliers df) c).length = (df c).length := by
  induction l generalizing df with
  | nil => rfl
  | cons a t ih =>
    rw [List.foldl_cons, ih, handle_outliers_length]

theorem foldl_min_le_init {α : Type} [LinearOrder α] (l : List α) (a : α) :
    l.foldl min a ≤ a := by
  induction l generalizing a with
  | nil => exact le_refl a
  | cons x t ih =>
    exact le_trans (ih (min a x)) (min_le_left a x)

theorem foldl_min_le_mem {α : Type} [LinearOrder α] (l : List α) (a : α) :
    ∀ x ∈ l, l.foldl min a ≤ x := by
  induction l generalizing a with
  | nil => intro x hx; exact absurd hx (List.not_mem_nil x)
  | cons y t ih =>
    intro x hx
    rcases List.mem_cons.mp hx with rfl | hxt
    · exact le_trans (foldl_min_le_init t (min a x)) (min_le_right a x)
    · exact ih (min a y) x hxt

theorem foldl_min_mem {α : Type} [LinearOrder α] (l : List α) (a : α) :
    l.foldl min a = a ∨ l.foldl min a ∈ l := by
  induction l generalizing a with
  | nil => exact Or.inl rfl
  | cons y t ih =>
    rw [List.foldl_cons]
    rcases ih (min a y) with heq | hmem
    · rcases min_choice a y with hy | hy
      · exact Or.inl (heq.trans hy)
      · exact Or.inr (by rw [heq, hy]; exact List.mem_cons_self y t)
    · exact Or.inr (List.mem_cons_of_mem y hmem)

theorem foldl_max_init_le (l : List ℚ) (a : ℚ) : a ≤ l.foldl max a := by
  induction l generalizing a with
  | nil => exact le_refl a
  | cons x t ih =>
    exact le_trans (le_max_left a x) (ih (max a x))

theorem foldl_max_mem_le (l : List ℚ) (a : ℚ) : ∀ x ∈ l, x ≤ l.foldl max a := by
  induction l generalizing a with
  | nil => intro x hx; exact absurd hx (List.not_mem_nil x)
  | cons y t ih =>
    intro x hx
    rcases List.mem_cons.mp hx with rfl | hxt
    · exact le_trans (le_max_right a x) (foldl_max_init_le t (max a x))
    · exact ih (max a y) x hxt

theorem npMin_le {xs : List ℚ} {x : ℚ} (hx : x ∈ xs) : npMin xs ≤ x := by
  match xs, hx with
  | v :: vs, hx =>
    unfold npMin
    rcases List.mem_cons.mp hx with rfl | hxt
    · exact foldl_min_le_init vs x
    · exact foldl_min_le_mem vs v x hxt

theorem le_npMax {xs : List ℚ} {x : ℚ} (hx : x ∈ xs) : x ≤ npMax xs := by
  match xs, hx with
  | v :: vs, hx =>
    unfold npMax
    rcases List.mem_cons.mp hx with rfl | hxt
    · exact foldl_max_init_le vs x
    · exact foldl_max_mem_le vs v x hxt

/-! ### Claim theorems: outlier capping and normalization -/

/-- C2: after the outlier stage, every value of a designated column lies in
`[lower, upper]` computed from that column's pre-capping distribution; the
column's treatment only uses its own pre-capping values, so capping the other
designated columns does not change the bounds. -/
theorem outlier_bounds_precap (df : Frame) (c : String) (hc : c ∈ outlier_columns)
    (hne : df c ≠ []) :
    outlierStage df c = capColumn (df c) ∧
    ∀ v ∈ outlierStage df c, lower_bound (df c) ≤ v ∧ v ≤ upper_bound (df c) := by
  have hcap : outlierStage df c = capColumn (df c) :=
    foldl_handle_outliers_mem outlier_columns df c outlier_columns_nodup hc
  refine ⟨hcap, ?_⟩
  rw [hcap]
  exact capColumn_mem_bounds (df c) hne

theorem outlier_bounds_precap_witness :
    ("Age" ∈ outlier_columns) ∧
    ((fun _ : String => [(1 : ℚ), 2, 10]) "Age" ≠ []) ∧
    (outlierStage (fun _ => [(1 : ℚ), 2, 10]) "Age" =
        capColumn ((fun _ : String => [(1 : ℚ), 2, 10]) "Age") ∧
      ∀ v ∈ outlierStage (fun _ => [(1 : ℚ), 2, 10]) "Age",
        lower_bound ((fun _ : String => [(1 : ℚ), 2, 10]) "Age") ≤ v ∧
          v ≤ upper_bound ((fun _ : String => [(1 : ℚ), 2, 10]) "Age")) :=
  ⟨by decide, by simp,
    outlier_bounds_precap (fun _ => [(1 : ℚ), 2, 10]) "Age" (by decide) (by simp)⟩

/-- C9: a designated column with zero IQR — in particular a constant
column — has `lower = upper = Q1`, and capping collapses the column to that
single value. -/
theorem iqr_zero_collapses (xs : List ℚ) (a : ℚ) (hne : xs ≠ []) :
    ((∀ x ∈ xs, x = a) → percentile xs 75 - percentile xs 25 = 0) ∧
    (percentile xs 75 - percentile xs 25 = 0 →
      lower_bound xs = percentile xs 25 ∧ upper_bound xs = percentile xs 25 ∧
      ∀ v ∈ capColumn xs, v = percentile xs 25) := by
  constructor
  · intro ha
    rw [percentile_const hne ha (by norm_num) (by norm_num),
      percentile_const hne ha (by norm_num) (by norm_num)]
    ring
  · intro hiqr
    have hl : lower_bound xs = percentile xs 25 := by
      unfold lower_bound
      linarith
    have hu : upper_bound xs = percentile xs 25 := by
      unfold upper_bound
      linarith
    refine ⟨hl, hu, ?_⟩
    intro v hv
    have hb := capColumn_mem_bounds xs hne v hv
    rw [hl, hu] at hb
    exact le_antisymm hb.2 hb.1

theorem iqr_zero_collapses_witness :
    (([(5 : ℚ), 5] : List ℚ) ≠ []) ∧
    ((∀ x ∈ [(5 : ℚ), 5], x = 5) →
        percentile [(5 : ℚ), 5] 75 - percentile [(5 : ℚ), 5] 25 = 0) ∧
      (percentile [(5 : ℚ), 5] 75 - percentile [(5 : ℚ), 5] 25 = 0 →
        lower_bound [(5 : ℚ), 5] = percentile [(5 : ℚ), 5] 25 ∧
          upper_bound [(5 : ℚ), 5] = percentile [(5 : ℚ), 5] 25 ∧
          ∀ v ∈ capColumn [(5 : ℚ), 5], v = percentile [(5 : ℚ), 5] 25) :=
  ⟨by simp, iqr_zero_collapses [(5 : ℚ), 5] 5 (by simp)⟩

/-- C10 (frame effect): capping maps each cell through `capCell`, which
leaves any value already inside `[lower, upper]` unchanged and moves only
values strictly below the lower bound (to it) or strictly above the upper
bound (to it). -/
theorem capping_frame_effect (xs : List ℚ) (hne : xs ≠ []) :
    capColumn xs = xs.map (capCell (lower_bound xs) (upper_bound xs)) ∧
    ∀ v : ℚ,
      (lower_bound xs ≤ v → v ≤ upper_bound xs →
        capCell (lower_bound xs) (upper_bound xs) v = v) ∧
      (v < lower_bound xs →
        capCell (lower_bound xs) (upper_bound xs) v = lower_bound xs) ∧
      (upper_bound xs < v →
        capCell (lower_bound xs) (upper_bound xs) v = upper_bound xs) := by
  refine ⟨rfl, fun v => ⟨capCell_of_mem _ _ v, ?_, ?_⟩⟩
  · exact capCell_of_lt _ _ v (lower_le_upper xs hne)
  · exact capCell_of_gt _ _ v (lower_le_upper xs hne)

theorem capping_frame_effect_witness :
    (([(1 : ℚ), 2, 10] : List ℚ) ≠ []) ∧
    (capColumn [(1 : ℚ), 2, 10] =
        [(1 : ℚ), 2, 10].map
          (capCell (lower_bound [(1 : ℚ), 2, 10]) (upper_bound [(1 : ℚ), 2, 10])) ∧
      ∀ v : ℚ,
        (lower_bound [(1 : ℚ), 2, 10] ≤ v → v ≤ upper_bound [(1 : ℚ), 2, 10] →
          capCell (lower_bound [(1 : ℚ), 2, 10]) (upper_bound [(1 : ℚ), 2, 10]) v = v) ∧
        (v < lower_bound [(1 : ℚ), 2, 10] →
          capCell (lower_bound [(1 : ℚ), 2, 10]) (upper_bound [(1 : ℚ), 2, 10]) v =
            lower_bound [(1 : ℚ), 2, 10]) ∧
        (upper_bound [(1 : ℚ), 2, 10] < v →
          capCell (lower_bound [(1 : ℚ), 2, 10]) (upper_bound [(1 : ℚ), 2, 10]) v =
            upper_bound [(1 : ℚ), 2, 10])) :=
  ⟨by simp, capping_frame_effect [(1 : ℚ), 2, 10] (by simp)⟩

/-- C4: the derived min-max normalized values lie in `[0, 1]`; cells holding
the column minimum map to 0 and cells holding the maximum map to 1 (when
`max ≠ min`). -/
theorem normalize_column_unit_range (xs : List ℚ) (hmm : npMin xs ≠ npMax xs) :
    normalize_column xs = xs.map (fun x => (x - npMin xs) / (npMax xs - npMin xs)) ∧
    ∀ x ∈ xs, 0 ≤ (x - npMin xs) / (npMax xs - npMin xs) ∧
      (x - npMin xs) / (npMax xs - npMin xs) ≤ 1 ∧
      (x = npMin xs → (x - npMin xs) / (npMax xs - npMin xs) = 0) ∧
      (x = npMax xs → (x - npMin xs) / (npMax xs - npMin xs) = 1) := by
  refine ⟨rfl, fun x hx => ?_⟩
  have h1 : npMin xs ≤ x := npMin_le hx
  have h2 : x ≤ npMax xs := le_npMax hx
  have hlt : npMin xs < npMax xs := lt_of_le_of_ne (le_trans h1 h2) hmm
  have hpos : 0 < npMax xs - npMin xs := by linarith
  refine ⟨div_nonneg (by linarith) (le_of_lt hpos), ?_, ?_, ?_⟩
  · rw [div_le_one hpos]
    linarith
  · intro hxe
    rw [hxe, sub_self, zero_div]
  · intro hxe
    rw [hxe, div_self (ne_of_gt hpos)]

theorem normalize_column_unit_range_witness :
    (npMin [(1 : ℚ), 2, 10] ≠ npMax [(1 : ℚ), 2, 10]) ∧
    (normalize_column [(1 : ℚ), 2, 10] =
        [(1 : ℚ), 2, 10].map
          (fun x => (x - npMin [(1 : ℚ), 2, 10]) /
            (npMax [(1 : ℚ), 2, 10] - npMin [(1 : ℚ), 2, 10])) ∧
      ∀ x ∈ [(1 : ℚ), 2, 10],
        0 ≤ (x - npMin [(1 : ℚ), 2, 10]) /
            (npMax [(1 : ℚ), 2, 10] - npMin [(1 : ℚ), 2, 10]) ∧
        (x - npMin [(1 : ℚ), 2, 10]) /
            (npMax [(1 : ℚ), 2, 10] - npMin [(1 : ℚ), 2, 10]) ≤ 1 ∧
        (x = npMin [(1 : ℚ), 2, 10] →
          (x - npMin [(1 : ℚ), 2, 10]) /
              (npMax [(1 : ℚ), 2, 10] - npMin [(1 : ℚ), 2, 10]) = 0) ∧
        (x = npMax [(1 : ℚ), 2, 10] →
          (x - npMin [(1 : ℚ), 2, 10]) /
              (npMax [(1 : ℚ), 2, 10] - npMin [(1 : ℚ), 2, 10]) = 1)) :=
  ⟨by norm_num [npMin, npMax], normalize_column_unit_range [(1 : ℚ), 2, 10]
    (by norm_num [npMin, npMax])⟩

/-! ### Imputation lemmas -/

theorem le_foldr_max (l : List ℕ) (x : ℕ) (hx : x ∈ l) : x ≤ l.foldr max 0 := by
  induction l with
  | nil => exact absurd hx (List.not_mem_nil x)
  | cons y t ih =>
    rw [List.foldr_cons]
    rcases List.mem_cons.mp hx with rfl | hxt
    · exact le_max_left x _
    · exact le_trans (ih hxt) (le_max_right y _)

theorem foldr_max_attained (l : List ℕ) : l.foldr max 0 = 0 ∨ l.foldr max 0 ∈ l := by
  induction l with
  | nil => exact Or.inl rfl
  | cons y t ih =>
    rw [List.foldr_cons]
    rcases max_choice y (t.foldr max 0) with hy | hy
    · exact Or.inr (by rw [hy]; exact List.mem_cons_self y t)
    · rw [hy]
      rcases ih with h0 | hmem
      · exact Or.inl h0
      · exact Or.inr (List.mem_cons_of_mem y hmem)

theorem count_le_maxFreq {xs : List String} {v : String} (hv : v ∈ xs) :
    xs.count v ≤ maxFreq xs :=
  le_foldr_max _ _ (List.mem_map.mpr ⟨v, hv, rfl⟩)

theorem count_pos_of_mem {xs : List String} {v : String} (hv : v ∈ xs) :
    0 < xs.count v :=
  List.count_pos_iff.mpr hv

theorem modeCands_ne_nil {xs : List String} (hne : xs ≠ []) : modeCands xs ≠ [] := by
  obtain ⟨y, hy⟩ := List.exists_mem_of_ne_nil xs hne
  rcases foldr_max_attained (xs.map (fun v => xs.count v)) with h0 | hmem
  · have h1 := count_le_maxFreq hy
    have h2 := count_pos_of_mem hy
    have h0' : maxFreq xs = 0 := h0
    omega
  · obtain ⟨w, hw, hcnt⟩ := List.mem_map.mp hmem
    intro hcands
    have hwin : w ∈ modeCands xs := by
      unfold modeCands
      rw [List.mem_filter]
      exact ⟨hw, by simp [hcnt, maxFreq]⟩
    rw [hcands] at hwin
    exact List.not_mem_nil w hwin

/-- `mode()[0]` of a nonempty value list exists, is one of the most frequent
values, and is the smallest value among those tied for most frequent. -/
theorem pandasModeZero_spec (xs : List String) (hne : xs ≠ []) :
    ∃ m, pandasModeZero xs = some m ∧ m ∈ xs ∧ xs.count m = maxFreq xs ∧
      ∀ v ∈ xs, xs.count v = maxFreq xs → m ≤ v := by
  have hcne := modeCands_ne_nil hne
  obtain ⟨v, vs, hvv⟩ := List.exists_cons_of_ne_nil hcne
  refine ⟨vs.foldl min v, ?_, ?_, ?_, ?_⟩
  · unfold pandasModeZero
    rw [hvv]
  · have hmem : vs.foldl min v ∈ modeCands xs := by
      rcases foldl_min_mem vs v with heq | hmem
      · rw [heq, hvv]; exact List.mem_cons_self v vs
      · rw [hvv]; exact List.mem_cons_of_mem v hmem
    exact (List.mem_filter.mp hmem).1
  · have hmem : vs.foldl min v ∈ modeCands xs := by
      rcases foldl_min_mem vs v with heq | hmem
      · rw [heq, hvv]; exact List.mem_cons_self v vs
      · rw [hvv]; exact List.mem_cons_of_mem v hmem
    have := (List.mem_filter.mp hmem).2
    exact of_decide_eq_true this
  · intro w hw hcnt
    have hwmem : w ∈ modeCands xs := by
      unfold modeCands
      rw [List.mem_filter]
      exact ⟨hw, by simp [hcnt]⟩
    rw [hvv] at hwmem
    rcases List.mem_cons.mp hwmem with rfl | hwt
    · exact foldl_min_le_init vs w
    · exact foldl_min_le_mem vs v w hwt

theorem imputeNum_length (col : List (Option ℚ)) :
    (imputeNum col).length = col.length := by
  unfold imputeNum
  split_ifs with h
  · rcases hcase : col.filterMap (fun a => id a) with _ | ⟨v, vs⟩
    · rfl
    · exact List.length_map _ _
  · rfl

theorem imputeCat_length (col : List (Option String)) :
    ∀ r, imputeCat col = some r → r.length = col.length := by
  intro r hr
  unfold imputeCat at hr
  split_ifs at hr with h
  · rcases hcase : pandasModeZero (col.filterMap (fun a => id a)) with _ | m <;>
      rw [hcase] at hr
    · exact absurd hr (by simp)
    · simp only [Option.some.injEq] at hr
      rw [← hr]
      exact List.length_map _ _
  · simp only [Option.some.injEq] at hr
    rw [← hr]

theorem imputeNum_no_missing (col : List (Option ℚ))
    (hval : col.filterMap id ≠ []) :
    (imputeNum col).all Option.isSome = true := by
  unfold imputeNum
  split_ifs with h
  · rcases hcase : col.filterMap id with _ | ⟨v, vs⟩
    · exact absurd hcase hval
    · rw [List.all_eq_true]
      intro x hx
      obtain ⟨y, _, rfl⟩ := List.mem_map.mp hx
      rfl
  · rw [List.all_eq_true]
    intro x hx
    rcases hx' : x with _ | y
    · rw [List.any_eq_true] at h
      exact absurd ⟨x, hx, by rw [hx']; rfl⟩ h
    · rfl

theorem imputeCat_no_missing (col : List (Option String))
    (hval : col.filterMap id ≠ []) :
    ∃ r, imputeCat col = some r ∧ r.all Option.isSome = true := by
  unfold imputeCat
  split_ifs with h
  · obtain ⟨m, hm, -, -, -⟩ := pandasModeZero_spec _ hval
    refine ⟨col.map (fun x => some (x.getD m)), by rw [hm], ?_⟩
    rw [List.all_eq_true]
    intro x hx
    obtain ⟨y, _, rfl⟩ := List.mem_map.mp hx
    rfl
  · refine ⟨col, rfl, ?_⟩
    rw [List.all_eq_true]
    intro x hx
    rcases hx' : x with _ | y
    · rw [List.any_eq_true] at h
      exact absurd ⟨x, hx, by rw [hx']; rfl⟩ h
    · rfl

theorem catCols_mapM_some (l : List (String × List (Option String)))
    (h : ∀ p ∈ l, p.2.filterMap id ≠ []) :
    ∃ r, l.mapM (fun p => (imputeCat p.2).map (fun c => (p.1, c))) = some r ∧
      ∀ q ∈ r, q.2.all Option.isSome = true := by
  induction l with
  | nil => exact ⟨[], rfl, by intro q hq; exact absurd hq (List.not_mem_nil q)⟩
  | cons p t ih =>
    obtain ⟨c, hc, hcall⟩ := imputeCat_no_missing p.2 (h p (List.mem_cons_self p t))
    obtain ⟨r, hr, hrall⟩ := ih (fun q hq => h q (List.mem_cons_of_mem p hq))
    refine ⟨(p.1, c) :: r, ?_, ?_⟩
    · rw [List.mapM_cons, hc, hr]
      rfl
    · intro q hq
      rcases List.mem_cons.mp hq with rfl | hqt
      · exact hcall
      · exact hrall q hqt

/-! ### Claim theorems: imputation -/

/-- C1 (amended): when every column has at least one non-missing value, the
imputation stage succeeds and afterwards no record has a missing value in
any column of the input schema.  (All later stages map existing cells
through total functions or add derived columns, so no missing value can
reappear.) -/
theorem impute_removes_all_missing (d : Dataset)
    (hn : ∀ p ∈ d.numCols, p.2.filterMap id ≠ ([] : List ℚ))
    (hc : ∀ p ∈ d.catCols, p.2.filterMap id ≠ ([] : List String)) :
    ∃ d', imputeDataset d = some d' ∧ noMissing d' = true := by
  obtain ⟨cats, hcats, hcall⟩ := catCols_mapM_some d.catCols hc
  refine ⟨⟨d.numCols.map (fun p => (p.1, imputeNum p.2)), cats⟩, ?_, ?_⟩
  · unfold imputeDataset
    rw [hcats]
  · unfold noMissing
    rw [Bool.and_eq_true]
    constructor
    · rw [List.all_eq_true]
      intro q hq
      obtain ⟨p, hp, rfl⟩ := List.mem_map.mp hq
      exact imputeNum_no_missing p.2 (hn p hp)
    · rw [List.all_eq_true]
      intro q hq
      exact hcall q hq

theorem impute_removes_all_missing_witness :
    (∀ p ∈ (Dataset.mk [("Age", [some (1 : ℚ), none])]
        [("Gender", [some "M", none])]).numCols,
      p.2.filterMap id ≠ ([] : List ℚ)) ∧
    (∀ p ∈ (Dataset.mk [("Age", [some (1 : ℚ), none])]
        [("Gender", [some "M", none])]).catCols,
      p.2.filterMap id ≠ ([] : List String)) ∧
    (∃ d', imputeDataset (Dataset.mk [("Age", [some (1 : ℚ), none])]
        [("Gender", [some "M", none])]) = some d' ∧ noMissing d' = true) :=
  ⟨by decide, by decide,
    impute_removes_all_missing _ (by decide) (by decide)⟩

/-- C1 as stated is false: a numeric column whose values are all missing is
left untouched (the median of an empty series is NaN, so `fillna` fills
nothing), and missing values survive imputation. -/
theorem impute_all_missing_column_remains :
    imputeDataset (Dataset.mk [("Age", [(none : Option ℚ)])] []) =
      some (Dataset.mk [("Age", [(none : Option ℚ)])] []) ∧
    noMissing (Dataset.mk [("Age", [(none : Option ℚ)])] []) = false := by
  constructor
  · rfl
  · rfl

/-- C6 (amended): a categorical column with at least one missing and one
non-missing value is filled with `m = mode()[0]`, which is a most frequent
value and, among the values tied for most frequent, the smallest in sort
order — not the first-encountered one. -/
theorem imputeCat_fills_with_min_mode (col : List (Option String))
    (hmiss : col.any Option.isNone = true)
    (hvals : col.filterMap id ≠ []) :
    ∃ m, pandasModeZero (col.filterMap id) = some m ∧
      imputeCat col = some (col.map (fun x => some (x.getD m))) ∧
      m ∈ col.filterMap id ∧
      (∀ v ∈ col.filterMap id,
        (col.filterMap id).count v ≤ (col.filterMap id).count m) ∧
      (∀ v ∈ col.filterMap id,
        (col.filterMap id).count v = (col.filterMap id).count m → m ≤ v) := by
  obtain ⟨m, hm, hmem, hcnt, hmin⟩ := pandasModeZero_spec _ hvals
  refine ⟨m, hm, ?_, hmem, ?_, ?_⟩
  · unfold imputeCat
    rw [if_pos hmiss, hm]
  · intro v hv
    rw [hcnt]
    exact count_le_maxFreq hv
  · intro v hv hveq
    exact hmin v hv (hveq.trans hcnt)

theorem imputeCat_fills_with_min_mode_witness :
    (([some "B", some "A", none] : List (Option String)).any Option.isNone = true) ∧
    (([some "B", some "A", none] : List (Option String)).filterMap id ≠ []) ∧
    (∃ m, pandasModeZero (([some "B", some "A", none] :
        List (Option String)).filterMap id) = some m ∧
      imputeCat [some "B", some "A", none] =
        some (([some "B", some "A", none] : List (Option String)).map
          (fun x => some (x.getD m))) ∧
      m ∈ (([some "B", some "A", none] : List (Option String)).filterMap id) ∧
      (∀ v ∈ (([some "B", some "A", none] : List (Option String)).filterMap id),
        (([some "B", some "A", none] : List (Option String)).filterMap id).count v ≤
          (([some "B", some "A", none] : List (Option String)).filterMap id).count m) ∧
      (∀ v ∈ (([some "B", some "A", none] : List (Option String)).filterMap id),
        (([some "B", some "A", none] : List (Option String)).filterMap id).count v =
          (([some "B", some "A", none] : List (Option String)).filterMap id).count m →
            m ≤ v)) :=
  ⟨by decide, by decide, imputeCat_fills_with_min_mode _ (by decide) (by decide)⟩

/-- C6 as stated is false: on the column `[B, A, missing]` both values are
tied for most frequent; the first-encountered one is `B`, yet the code fills
the missing cell with `A` (pandas sorts the modes and takes index 0). -/
theorem mode_tie_not_first_encountered :
    imputeCat [some "B", some "A", none] =
      some [some "B", some "A", some "A"] ∧
    specFirstMode (([some "B", some "A", none] :
      List (Option String)).filterMap id) = some "B" ∧
    some "A" ≠ some "B" := by
  have hmin : (["A"] : List String).foldl min "B" = "A" := by
    show min ("B" : String) "A" = "A"
    rw [min_def, if_neg]
    rw [String.le_iff_toList_le]
    decide
  have hcands : modeCands ["B", "A"] = ["B", "A"] := by decide
  have hmode : pandasModeZero ["B", "A"] = some "A" := by
    unfold pandasModeZero
    rw [hcands]
    exact congrArg some hmin
  have hfm : ([some "B", some "A", none] : List (Option String)).filterMap id =
      ["B", "A"] := by decide
  refine ⟨?_, by decide, by decide⟩
  unfold imputeCat
  rw [hfm, hmode]
  split_ifs with h
  · decide
  · exact absurd (by decide) h

/-- C3: neither imputation nor outlier capping adds or removes records —
every stage returns columns of unchanged length. -/
theorem row_count_invariant (ncol : List (Option ℚ)) (ccol : List (Option String))
    (df : Frame) (c : String) :
    (imputeNum ncol).length = ncol.length ∧
    (∀ r, imputeCat ccol = some r → r.length = ccol.length) ∧
    (capColumn (df c)).length = (df c).length ∧
    (outlierStage df c).length = (df c).length :=
  ⟨imputeNum_length ncol, imputeCat_length ccol, capColumn_length (df c),
    foldl_handle_outliers_length outlier_columns df c⟩

theorem row_count_invariant_witness :
    (imputeNum [some (1 : ℚ), none]).length = 2 ∧
    (∀ r, imputeCat [some "A", none] = some r → r.length = 2) ∧
    (capColumn ((fun _ : String => [(1 : ℚ), 2, 3]) "Age")).length = 3 ∧
    (outlierStage (fun _ : String => [(1 : ℚ), 2, 3]) "Age").length = 3 :=
  row_count_invariant [some (1 : ℚ), none] [some "A", none]
    (fun _ => [(1 : ℚ), 2, 3]) "Age"

theorem npVar_nonneg (xs : List ℚ) : 0 ≤ npVar xs := by
  unfold npVar npMean
  apply div_nonneg
  · apply List.sum_nonneg
    intro x hx
    obtain ⟨y, _, rfl⟩ := List.mem_map.mp hx
    exact sq_nonneg _
  · exact_mod_cast Nat.zero_le _

theorem ne_nil_of_npVar_ne_zero {xs : List ℚ} (hvar : npVar xs ≠ 0) : xs ≠ [] := by
  intro h
  subst h
  exact hvar (by simp [npVar, npMean])

theorem sum_map_affine (l : List ℚ) (a b : ℝ) :
    (l.map (fun x : ℚ => a * (x : ℝ) + b)).sum =
      a * ((l.sum : ℚ) : ℝ) + (l.length : ℝ) * b := by
  induction l with
  | nil => simp
  | cons x t ih =>
    simp only [List.map_cons, List.sum_cons, ih, List.length_cons]
    push_cast
    ring

theorem sum_map_sq_scaled (l : List ℚ) (μq : ℚ) (k : ℝ) :
    (l.map (fun x : ℚ => ((x : ℝ) - (μq : ℝ)) ^ 2 * k)).sum =
      (((l.map (fun x => (x - μq) ^ 2)).sum : ℚ) : ℝ) * k := by
  induction l with
  | nil => simp
  | cons x t ih =>
    simp only [List.map_cons, List.sum_cons, ih]
    push_cast
    ring

/-- C5: when the population standard deviation is nonzero (equivalently
nonzero variance), the derived z-score column has exactly mean 0 and
standard deviation 1 in exact arithmetic. -/
theorem zscore_mean_zero_std_one (xs : List ℚ) (hvar : npVar xs ≠ 0) :
    meanR (zscoreColumn xs) = 0 ∧ stdR (zscoreColumn xs) = 1 := by
  have hne : xs ≠ [] := ne_nil_of_npVar_ne_zero hvar
  have hn : 0 < xs.length := List.length_pos.mpr hne
  have hnQ : (xs.length : ℚ) ≠ 0 := by exact_mod_cast Nat.pos_iff_ne_zero.mp hn
  have hnR : (xs.length : ℝ) ≠ 0 := by exact_mod_cast Nat.pos_iff_ne_zero.mp hn
  have hvpos : 0 < npVar xs := lt_of_le_of_ne (npVar_nonneg xs) (Ne.symm hvar)
  have hvposR : (0 : ℝ) < ((npVar xs : ℚ) : ℝ) := by exact_mod_cast hvpos
  have hs_pos : 0 < npStd xs := Real.sqrt_pos.mpr hvposR
  have hs_ne : npStd xs ≠ 0 := ne_of_gt hs_pos
  have hs_sq : npStd xs ^ 2 = ((npVar xs : ℚ) : ℝ) :=
    Real.sq_sqrt (le_of_lt hvposR)
  have hsum : ((xs.sum : ℚ) : ℝ) = (xs.length : ℝ) * ((npMean xs : ℚ) : ℝ) := by
    have : npMean xs * (xs.length : ℚ) = xs.sum := by
      unfold npMean
      field_simp
    push_cast [← this]
    ring
  -- the z-scores written as an affine map of the original cells
  have hmap : zscoreColumn xs =
      xs.map (fun x : ℚ => (npStd xs)⁻¹ * (x : ℝ) +
        (-((npMean xs : ℚ) : ℝ) / npStd xs)) := by
    unfold zscoreColumn
    apply List.map_congr_left
    intro x _
    rw [sub_div]
    ring
  have hlen : (zscoreColumn xs).length = xs.length := List.length_map _ _
  have hsum0 : (zscoreColumn xs).sum = 0 := by
    rw [hmap, sum_map_affine, hsum]
    field_simp
  have hmean0 : meanR (zscoreColumn xs) = 0 := by
    unfold meanR
    rw [hsum0, zero_div]
  refine ⟨hmean0, ?_⟩
  unfold stdR
  rw [hmean0]
  simp only [sub_zero]
  have hsq : (zscoreColumn xs).map (fun y => y ^ 2) =
      xs.map (fun x : ℚ => ((x : ℝ) - ((npMean xs : ℚ) : ℝ)) ^ 2 * ((npStd xs ^ 2)⁻¹)) := by
    unfold zscoreColumn
    rw [List.map_map]
    apply List.map_congr_left
    intro x _
    simp only [Function.comp]
    rw [div_pow, div_eq_mul_inv]
  have hvar_sum : ((xs.map (fun x => (x - npMean xs) ^ 2)).sum : ℚ) =
      npVar xs * (xs.length : ℚ) := by
    unfold npVar npMean
    rw [List.length_map]
    field_simp
  have hmeansq : meanR ((zscoreColumn xs).map (fun y => y ^ 2)) = 1 := by
    unfold meanR
    rw [hsq, sum_map_sq_scaled, hvar_sum, List.length_map, hs_sq]
    push_cast
    field_simp
  rw [hmeansq, Real.sqrt_one]

theorem zscore_mean_zero_std_one_witness :
    npVar [(0 : ℚ), 2] ≠ 0 ∧
    (meanR (zscoreColumn [(0 : ℚ), 2]) = 0 ∧ stdR (zscoreColumn [(0 : ℚ), 2]) = 1) :=
  ⟨by norm_num [npVar, npMean], zscore_mean_zero_std_one [(0 : ℚ), 2]
    (by norm_num [npVar, npMean])⟩

/-! ### Character lemmas -/

theorem toUpper_eq_self {c : Char} (h : ¬(c.toNat ≥ 97 ∧ c.toNat ≤ 122)) :
    c.toUpper = c := by
  show (if c.toNat ≥ 97 ∧ c.toNat ≤ 122 then Char.ofNat (c.toNat - 32) else c) = c
  exact if_neg h

theorem toLower_eq_self {c : Char} (h : ¬(c.toNat ≥ 65 ∧ c.toNat ≤ 90)) :
    c.toLower = c := by
  show (if c.toNat ≥ 65 ∧ c.toNat ≤ 90 then Char.ofNat (c.toNat + 32) else c) = c
  exact if_neg h

theorem toUpper_toUpper (c : Char) : c.toUpper.toUpper = c.toUpper := by
  by_cases h : c.toNat ≥ 97 ∧ c.toNat ≤ 122
  · have key : ∀ n : ℕ, 97 ≤ n → n ≤ 122 →
        (Char.ofNat n).toUpper.toUpper = (Char.ofNat n).toUpper := by
      intro n h1 h2
      interval_cases n <;> decide
    have h3 := key c.toNat h.1 h.2
    rwa [Char.ofNat_toNat] at h3
  · rw [toUpper_eq_self h]
    exact toUpper_eq_self h

theorem toLower_toLower (c : Char) : c.toLower.toLower = c.toLower := by
  by_cases h : c.toNat ≥ 65 ∧ c.toNat ≤ 90
  · have key : ∀ n : ℕ, 65 ≤ n → n ≤ 90 →
        (Char.ofNat n).toLower.toLower = (Char.ofNat n).toLower := by
      intro n h1 h2
      interval_cases n <;> decide
    have h3 := key c.toNat h.1 h.2
    rwa [Char.ofNat_toNat] at h3
  · rw [toLower_eq_self h]
    exact toLower_eq_self h

theorem isAlpha_toUpper (c : Char) : c.toUpper.isAlpha = c.isAlpha := by
  by_cases h : c.toNat ≥ 97 ∧ c.toNat ≤ 122
  · have key : ∀ n : ℕ, 97 ≤ n → n ≤ 122 →
        (Char.ofNat n).toUpper.isAlpha = (Char.ofNat n).isAlpha := by
      intro n h1 h2
      interval_cases n <;> decide
    have h3 := key c.toNat h.1 h.2
    rwa [Char.ofNat_toNat] at h3
  · rw [toUpper_eq_self h]

theorem isAlpha_toLower (c : Char) : c.toLower.isAlpha = c.isAlpha := by
  by_cases h : c.toNat ≥ 65 ∧ c.toNat ≤ 90
  · have key : ∀ n : ℕ, 65 ≤ n → n ≤ 90 →
        (Char.ofNat n).toLower.isAlpha = (Char.ofNat n).isAlpha := by
      intro n h1 h2
      interval_cases n <;> decide
    have h3 := key c.toNat h.1 h.2
    rwa [Char.ofNat_toNat] at h3
  · rw [toLower_eq_self h]

theorem isWhitespace_toUpper (c : Char) :
    c.toUpper.isWhitespace = c.isWhitespace := by
  by_cases h : c.toNat ≥ 97 ∧ c.toNat ≤ 122
  · have key : ∀ n : ℕ, 97 ≤ n → n ≤ 122 →
        (Char.ofNat n).toUpper.isWhitespace = (Char.ofNat n).isWhitespace := by
      intro n h1 h2
      interval_cases n <;> decide
    have h3 := key c.toNat h.1 h.2
    rwa [Char.ofNat_toNat] at h3
  · rw [toUpper_eq_self h]

theorem isWhitespace_toLower (c : Char) :
    c.toLower.isWhitespace = c.isWhitespace := by
  by_cases h : c.toNat ≥ 65 ∧ c.toNat ≤ 90
  · have key : ∀ n : ℕ, 65 ≤ n → n ≤ 90 →
        (Char.ofNat n).toLower.isWhitespace = (Char.ofNat n).isWhitespace := by
      intro n h1 h2
      interval_cases n <;> decide
    have h3 := key c.toNat h.1 h.2
    rwa [Char.ofNat_toNat] at h3
  · rw [toLower_eq_self h]

/-! ### titleMap and titleChars lemmas -/

theorem titleMap_isAlpha (p : Bool) (c : Char) :
    (titleMap p c).isAlpha = c.isAlpha := by
  unfold titleMap
  split_ifs with h1 h2
  · exact isAlpha_toLower c
  · exact isAlpha_toUpper c
  · rfl

theorem titleMap_isWhitespace (p : Bool) (c : Char) :
    (titleMap p c).isWhitespace = c.isWhitespace := by
  unfold titleMap
  split_ifs with h1 h2
  · exact isWhitespace_toLower c
  · exact isWhitespace_toUpper c
  · rfl

theorem titleMap_idem (p : Bool) (c : Char) :
    titleMap p (titleMap p c) = titleMap p c := by
  cases hc : c.isAlpha with
  | false => simp [titleMap, hc]
  | true =>
    cases p with
    | false => simp [titleMap, hc, isAlpha_toUpper, toUpper_toUpper]
    | true => simp [titleMap, hc, isAlpha_toLower, toLower_toLower]

theorem titleChars_length (p : Bool) (cs : List Char) :
    (titleChars p cs).length = cs.length := by
  induction cs generalizing p with
  | nil => rfl
  | cons c t ih => simp [titleChars, ih]

theorem titleChars_map_isWhitespace (p : Bool) (cs : List Char) :
    (titleChars p cs).map Char.isWhitespace = cs.map Char.isWhitespace := by
  induction cs generalizing p with
  | nil => rfl
  | cons c t ih => simp [titleChars, titleMap_isWhitespace, ih]

theorem titleChars_idem (p : Bool) (cs : List Char) :
    titleChars p (titleChars p cs) = titleChars p cs := by
  induction cs generalizing p with
  | nil => rfl
  | cons c t ih =>
    simp only [titleChars]
    rw [titleMap_idem, titleMap_isAlpha, ih]

/-- The character-level description of `titleChars`: position `i` is
transformed according to whether the character at position `i-1` (or the
initial flag, at position 0) is a letter. -/
theorem titleChars_getD (prev : Bool) (cs : List Char) (i : ℕ) (hi : i < cs.length) :
    (titleChars prev cs).getD i ' ' =
      titleMap (if i = 0 then prev else (cs.getD (i-1) ' ').isAlpha)
        (cs.getD i ' ') := by
  induction cs generalizing prev i with
  | nil => exact absurd hi (Nat.not_lt_zero i)
  | cons c t ih =>
    cases i with
    | zero => simp [titleChars]
    | succ j =>
      simp only [titleChars, List.getD_cons_succ]
      rw [ih c.isAlpha j (Nat.lt_of_succ_lt_succ hi)]
      cases j with
      | zero => simp
      | succ k => simp

/-! ### strip lemmas -/

theorem dropWhile_eq_self_of_head {p : Char → Bool} {l : List Char}
    (h : ∀ c, l.head? = some c → p c = false) : l.dropWhile p = l := by
  cases l with
  | nil => rfl
  | cons a t =>
    exact List.dropWhile_cons_of_neg (by simp [h a rfl])

theorem dropWhile_dropWhile (p : Char → Bool) (l : List Char) :
    (l.dropWhile p).dropWhile p = l.dropWhile p := by
  apply dropWhile_eq_self_of_head
  intro c hc
  have hne : l.dropWhile p ≠ [] := fun h => by simp [h] at hc
  have hh := List.head_dropWhile_not p l hne
  rw [List.head?_eq_head hne, Option.some.injEq] at hc
  rwa [hc] at hh

theorem dropWhile_isSuffix (p : Char → Bool) (l : List Char) :
    l.dropWhile p <:+ l :=
  ⟨l.takeWhile p, List.takeWhile_append_dropWhile p l⟩

theorem stripChars_reverse_dropWhile (cs : List Char) :
    (stripChars cs).reverse.dropWhile Char.isWhitespace = (stripChars cs).reverse := by
  unfold stripChars
  rw [List.reverse_reverse]
  exact dropWhile_dropWhile _ _

theorem stripChars_dropWhile (cs : List Char) :
    (stripChars cs).dropWhile Char.isWhitespace = stripChars cs := by
  apply dropWhile_eq_self_of_head
  intro c hc
  have hpre : (stripChars cs).reverse.reverse <+:
      (cs.dropWhile Char.isWhitespace).reverse.reverse := by
    apply List.IsSuffix.reverse
    unfold stripChars
    rw [List.reverse_reverse]
    exact dropWhile_isSuffix _ _
  rw [List.reverse_reverse, List.reverse_reverse] at hpre
  obtain ⟨r, hr⟩ := hpre
  cases hsc : stripChars cs with
  | nil => rw [hsc] at hc; exact absurd hc (by simp)
  | cons b t =>
    rw [hsc] at hc
    simp only [List.head?_cons, Option.some.injEq] at hc
    rw [hsc] at hr
    have hune : cs.dropWhile Char.isWhitespace ≠ [] := by
      rw [← hr]; simp
    have hpu : Char.isWhitespace ((cs.dropWhile Char.isWhitespace).head hune) = false :=
      List.head_dropWhile_not _ cs hune
    have hhead : (cs.dropWhile Char.isWhitespace).head hune = b := by
      have : cs.dropWhile Char.isWhitespace = b :: (t ++ r) := by
        rw [← hr]; simp
      simp [this]
    rw [hhead, hc] at hpu
    exact hpu

theorem dropWhile_eq_self_transfer (p : Char → Bool) {l₁ l₂ : List Char}
    (hmap : l₁.map p = l₂.map p) (h2 : l₂.dropWhile p = l₂) :
    l₁.dropWhile p = l₁ := by
  cases l₁ with
  | nil => rfl
  | cons b t₁ =>
    cases l₂ with
    | nil => simp at hmap
    | cons a t₂ =>
      simp only [List.map_cons, List.cons.injEq] at hmap
      have hpa : p a = false := by
        cases hpa : p a with
        | false => rfl
        | true =>
          rw [List.dropWhile_cons_of_pos (by rw [hpa])] at h2
          have hlen := (List.dropWhile_sublist (l := t₂) p).length_le
          rw [h2] at hlen
          simp at hlen
      exact List.dropWhile_cons_of_neg (by simp [hmap.1, hpa])

/-- A list whose whitespace pattern matches an already-stripped list is
itself already stripped. -/
theorem stripChars_of_fixed {u t : List Char}
    (hmap : u.map Char.isWhitespace = t.map Char.isWhitespace)
    (ht1 : t.dropWhile Char.isWhitespace = t)
    (ht2 : t.reverse.dropWhile Char.isWhitespace = t.reverse) :
    stripChars u = u := by
  have h1 : u.dropWhile Char.isWhitespace = u :=
    dropWhile_eq_self_transfer _ hmap ht1
  have hmaprev : u.reverse.map Char.isWhitespace = t.reverse.map Char.isWhitespace := by
    rw [List.map_reverse, List.map_reverse, hmap]
  have h2 : u.reverse.dropWhile Char.isWhitespace = u.reverse :=
    dropWhile_eq_self_transfer _ hmaprev ht2
  unfold stripChars
  rw [h1, h2, List.reverse_reverse]

/-! ### Claim theorems: categorical formatting -/

/-- C8: categorical normalization (coerce to text, strip, title-case) is
idempotent: applying it twice equals applying it once. -/
theorem format_idempotent (s : String) : formatCell (formatCell s) = formatCell s := by
  show String.mk (titleChars false (stripChars (titleChars false (stripChars s.data)))) =
    String.mk (titleChars false (stripChars s.data))
  have hstrip : stripChars (titleChars false (stripChars s.data)) =
      titleChars false (stripChars s.data) :=
    stripChars_of_fixed (titleChars_map_isWhitespace false (stripChars s.data))
      (stripChars_dropWhile s.data) (stripChars_reverse_dropWhile s.data)
  rw [hstrip, titleChars_idem]

/-- C7 (amended): formatting strips the value and title-cases it in Python's
sense — the first letter of each maximal run of letters (a letter not
preceded by a letter) is capitalized and every other letter is lowercased,
with non-letters unchanged; in particular `"  MALE "` becomes `"Male"`. -/
theorem format_title_case (s : String) (i : ℕ)
    (hi : i < (stripChars s.data).length) :
    (formatCell s).data.length = (stripChars s.data).length ∧
    (formatCell s).data.getD i ' ' =
      (if ((stripChars s.data).getD i ' ').isAlpha then
        (if i = 0 ∨ ((stripChars s.data).getD (i-1) ' ').isAlpha = false then
          ((stripChars s.data).getD i ' ').toUpper
        else ((stripChars s.data).getD i ' ').toLower)
      else (stripChars s.data).getD i ' ') ∧
    formatCell "  MALE " = "Male" := by
  refine ⟨titleChars_length false (stripChars s.data), ?_, by decide⟩
  show (titleChars false (stripChars s.data)).getD i ' ' = _
  rw [titleChars_getD false (stripChars s.data) i hi]
  unfold titleMap
  by_cases h0 : i = 0
  · simp [h0]
  · cases hq : ((stripChars s.data).getD (i-1) ' ').isAlpha with
    | false => simp [h0, hq]
    | true => simp [h0, hq]

theorem format_title_case_witness :
    (0 < (stripChars ("ab" : String).data).length) ∧
    ((formatCell "ab").data.length = (stripChars ("ab" : String).data).length ∧
      (formatCell "ab").data.getD 0 ' ' =
        (if ((stripChars ("ab" : String).data).getD 0 ' ').isAlpha then
          (if 0 = 0 ∨ ((stripChars ("ab" : String).data).getD (0-1) ' ').isAlpha = false then
            ((stripChars ("ab" : String).data).getD 0 ' ').toUpper
          else ((stripChars ("ab" : String).data).getD 0 ' ').toLower)
        else (stripChars ("ab" : String).data).getD 0 ' ') ∧
      formatCell "  MALE " = "Male") :=
  ⟨by decide, format_title_case "ab" 0 (by decide)⟩

/-- C7 as stated is false: Python title case capitalizes a letter after any
non-letter, not only after whitespace.  On `"a-b"` the code produces
`"A-B"`, while whitespace-word title case (the spec's description) produces
`"A-b"`. -/
theorem title_case_not_whitespace_word_based :
    formatCell "a-b" = "A-B" ∧ wsFormatCell "a-b" = "A-b" ∧
    formatCell "a-b" ≠ wsFormatCell "a-b" :=
  ⟨by decide, by decide, by decide⟩

/-- Sanity check: the 25th percentile of `[20, 25, 25, 200]` under NumPy's
linear interpolation is 23.75. -/
theorem percentile_example : percentile [20, 25, 25, 200] 25 = 95/4 := by
  norm_num [percentile, interpAt, sortAsc, List.insertionSort, List.orderedInsert]

/-- Sanity check: the median of `[20, 25, 200]` is 25. -/
theorem median_example : pandasMedian [20, 25, 200] = 25 := by
  norm_num [pandasMedian, sortAsc, List.insertionSort, List.orderedInsert]

end CancerAnalysis
